import Mathlib

/-!
Verification of the trigram similarity engine implemented in
`src/native/trigram_nif/src/lib.rs`.

The Rust source is shallowly embedded below.  Modelling conventions:

* Machine integers (`u8`, `u32`, `usize`) become `ℕ` with explicit masking
  (`&&& 0xFF`, `&&& 0xFFFFFFFF`) wherever the Rust code truncates.
* `FxHashSet<[u8; 3]>` becomes `Finset (ℕ × ℕ × ℕ)`: a hash set of 3-byte
  arrays is exactly a finite set of byte triples (hashing is an
  implementation detail with no observable effect on membership).
* Similarity scores are modelled in `ℚ`.  The Rust code computes
  `shared / total` in `f64` on exact small integers and narrows to `f32`;
  both rounding steps are monotone and fix `0.0` and `1.0`, so the exact
  rational value faithfully represents the comparisons, the `[0, 1]`
  bounds, and the equalities with `0.0` / `1.0` stated by the spec.
* Rayon's order-preserving parallel combinators (`par_iter().map().collect()`
  and `reduce`) are modelled by quantifying over every decomposition of the
  input into chunks: each chunk is processed independently and the partial
  results are recombined in input order, which is exactly rayon's contract.
* `char::to_lowercase` (Unicode simple/special lowercasing) and the word
  class `\p{L}\p{N}` of the `regex` crate are external library functions
  whose full Unicode tables are outside this repository; they are embedded
  exactly on the character ranges exercised by the specification (ASCII,
  and U+0130, the Turkish dotted capital I with its special two-character
  lowercase expansion) and act as the identity / non-word elsewhere.
-/

namespace TrigramNif

/-- Trigrams are fixed 3-byte values (the Rust `[u8; 3]`). -/
abbrev Trigram := ℕ × ℕ × ℕ

/-- Crossover point between the sequential and the parallel execution
strategies (`const PARALLEL_THRESHOLD: usize = 250`). -/
def PARALLEL_THRESHOLD : ℕ := 250

/-- Combining dot above, U+0307, stripped by `pg_downcase`. -/
def dotAbove : Char := '̇'

/-- Model of Rust `char::to_lowercase`: maps ASCII uppercase into ASCII
lowercase, expands U+0130 into the two characters i + U+0307 (the special
mapping the normalizer exists for), and is the identity elsewhere (exact
for every character that is already lowercase or caseless). -/
def to_lowercase (c : Char) : List Char :=
  if 0x41 ≤ c.toNat ∧ c.toNat ≤ 0x5A then [Char.ofNat (c.toNat + 0x20)]
  else if c.toNat = 0x130 then ['i', dotAbove]
  else [c]

/-- Model of the word class `[\p{L}\p{N}]` used by the pre-compiled
`WORD_RE`: Unicode letters and digits, embedded exactly on ASCII digits,
ASCII letters and U+0130; characters outside those ranges are treated as
separators. -/
def isWordChar (c : Char) : Bool :=
  decide ((0x30 ≤ c.toNat ∧ c.toNat ≤ 0x39) ∨ (0x41 ≤ c.toNat ∧ c.toNat ≤ 0x5A)
    ∨ (0x61 ≤ c.toNat ∧ c.toNat ≤ 0x7A) ∨ c.toNat = 0x130)

/-- Embedding of `pg_downcase`: for every character push every character of
its lowercase expansion except U+0307 (fold first, then strip the mark). -/
def pg_downcase (text : String) : String :=
  ⟨text.data.flatMap (fun c => (to_lowercase c).filter (fun lc => lc != dotAbove))⟩

/-- UTF-8 encoding of one scalar value, as produced by `char::encode_utf8`. -/
def utf8Bytes (c : Char) : List ℕ :=
  let n := c.toNat
  if n < 0x80 then [n]
  else if n < 0x800 then [0xC0 ||| (n >>> 6), 0x80 ||| (n &&& 0x3F)]
  else if n < 0x10000 then
    [0xE0 ||| (n >>> 12), 0x80 ||| ((n >>> 6) &&& 0x3F), 0x80 ||| (n &&& 0x3F)]
  else
    [0xF0 ||| (n >>> 18), 0x80 ||| ((n >>> 12) &&& 0x3F),
      0x80 ||| ((n >>> 6) &&& 0x3F), 0x80 ||| (n &&& 0x3F)]

/-- Embedding of the 256-entry `PG_CRC32_TABLE` constant, transcribed
verbatim from the Rust source. -/
def PG_CRC32_TABLE : List ℕ := [
  0x00000000, 0x77073096, 0xEE0E612C, 0x990951BA, 0x076DC419, 0x706AF48F, 0xE963A535, 0x9E6495A3,
  0x0EDB8832, 0x79DCB8A4, 0xE0D5E91E, 0x97D2D988, 0x09B64C2B, 0x7EB17CBD, 0xE7B82D07, 0x90BF1D91,
  0x1DB71064, 0x6AB020F2, 0xF3B97148, 0x84BE41DE, 0x1ADAD47D, 0x6DDDE4EB, 0xF4D4B551, 0x83D385C7,
  0x136C9856, 0x646BA8C0, 0xFD62F97A, 0x8A65C9EC, 0x14015C4F, 0x63066CD9, 0xFA0F3D63, 0x8D080DF5,
  0x3B6E20C8, 0x4C69105E, 0xD56041E4, 0xA2677172, 0x3C03E4D1, 0x4B04D447, 0xD20D85FD, 0xA50AB56B,
  0x35B5A8FA, 0x42B2986C, 0xDBBBC9D6, 0xACBCF940, 0x32D86CE3, 0x45DF5C75, 0xDCD60DCF, 0xABD13D59,
  0x26D930AC, 0x51DE003A, 0xC8D75180, 0xBFD06116, 0x21B4F4B5, 0x56B3C423, 0xCFBA9599, 0xB8BDA50F,
  0x2802B89E, 0x5F058808, 0xC60CD9B2, 0xB10BE924, 0x2F6F7C87, 0x58684C11, 0xC1611DAB, 0xB6662D3D,
  0x76DC4190, 0x01DB7106, 0x98D220BC, 0xEFD5102A, 0x71B18589, 0x06B6B51F, 0x9FBFE4A5, 0xE8B8D433,
  0x7807C9A2, 0x0F00F934, 0x9609A88E, 0xE10E9818, 0x7F6A0DBB, 0x086D3D2D, 0x91646C97, 0xE6635C01,
  0x6B6B51F4, 0x1C6C6162, 0x856530D8, 0xF262004E, 0x6C0695ED, 0x1B01A57B, 0x8208F4C1, 0xF50FC457,
  0x65B0D9C6, 0x12B7E950, 0x8BBEB8EA, 0xFCB9887C, 0x62DD1DDF, 0x15DA2D49, 0x8CD37CF3, 0xFBD44C65,
  0x4DB26158, 0x3AB551CE, 0xA3BC0074, 0xD4BB30E2, 0x4ADFA541, 0x3DD895D7, 0xA4D1C46D, 0xD3D6F4FB,
  0x4369E96A, 0x346ED9FC, 0xAD678846, 0xDA60B8D0, 0x44042D73, 0x33031DE5, 0xAA0A4C5F, 0xDD0D7CC9,
  0x5005713C, 0x270241AA, 0xBE0B1010, 0xC90C2086, 0x5768B525, 0x206F85B3, 0xB966D409, 0xCE61E49F,
  0x5EDEF90E, 0x29D9C998, 0xB0D09822, 0xC7D7A8B4, 0x59B33D17, 0x2EB40D81, 0xB7BD5C3B, 0xC0BA6CAD,
  0xEDB88320, 0x9ABFB3B6, 0x03B6E20C, 0x74B1D29A, 0xEAD54739, 0x9DD277AF, 0x04DB2615, 0x73DC1683,
  0xE3630B12, 0x94643B84, 0x0D6D6A3E, 0x7A6A5AA8, 0xE40ECF0B, 0x9309FF9D, 0x0A00AE27, 0x7D079EB1,
  0xF00F9344, 0x8708A3D2, 0x1E01F268, 0x6906C2FE, 0xF762575D, 0x806567CB, 0x196C3671, 0x6E6B06E7,
  0xFED41B76, 0x89D32BE0, 0x10DA7A5A, 0x67DD4ACC, 0xF9B9DF6F, 0x8EBEEFF9, 0x17B7BE43, 0x60B08ED5,
  0xD6D6A3E8, 0xA1D1937E, 0x38D8C2C4, 0x4FDFF252, 0xD1BB67F1, 0xA6BC5767, 0x3FB506DD, 0x48B2364B,
  0xD80D2BDA, 0xAF0A1B4C, 0x36034AF6, 0x41047A60, 0xDF60EFC3, 0xA867DF55, 0x316E8EEF, 0x4669BE79,
  0xCB61B38C, 0xBC66831A, 0x256FD2A0, 0x5268E236, 0xCC0C7795, 0xBB0B4703, 0x220216B9, 0x5505262F,
  0xC5BA3BBE, 0xB2BD0B28, 0x2BB45A92, 0x5CB36A04, 0xC2D7FFA7, 0xB5D0CF31, 0x2CD99E8B, 0x5BDEAE1D,
  0x9B64C2B0, 0xEC63F226, 0x756AA39C, 0x026D930A, 0x9C0906A9, 0xEB0E363F, 0x72076785, 0x05005713,
  0x95BF4A82, 0xE2B87A14, 0x7BB12BAE, 0x0CB61B38, 0x92D28E9B, 0xE5D5BE0D, 0x7CDCEFB7, 0x0BDBDF21,
  0x86D3D2D4, 0xF1D4E242, 0x68DDB3F8, 0x1FDA836E, 0x81BE16CD, 0xF6B9265B, 0x6FB077E1, 0x18B74777,
  0x88085AE6, 0xFF0F6A70, 0x66063BCA, 0x11010B5C, 0x8F659EFF, 0xF862AE69, 0x616BFFD3, 0x166CCF45,
  0xA00AE278, 0xD70DD2EE, 0x4E048354, 0x3903B3C2, 0xA7672661, 0xD06016F7, 0x4969474D, 0x3E6E77DB,
  0xAED16A4A, 0xD9D65ADC, 0x40DF0B66, 0x37D83BF0, 0xA9BCAE53, 0xDEBB9EC5, 0x47B2CF7F, 0x30B5FFE9,
  0xBDBDF21C, 0xCABAC28A, 0x53B39330, 0x24B4A3A6, 0xBAD03605, 0xCDD70693, 0x54DE5729, 0x23D967BF,
  0xB3667A2E, 0xC4614AB8, 0x5D681B02, 0x2A6F2B94, 0xB40BBE37, 0xC30C8EA1, 0x5A05DF1B, 0x2D02EF8D]

/-- Table index of one `legacy_crc32` step:
`((crc >> 24) as u8 ^ byte) as usize & 0xFF`. -/
def crcIdx (crc byte : ℕ) : ℕ :=
  (((crc >>> 24) &&& 0xFF) ^^^ byte) &&& 0xFF

/-- Embedding of `legacy_crc32`: initial register `0xFFFF_FFFF`, one masked
table lookup per byte, final XOR with `0xFFFF_FFFF`.  The table access is
Option-returning (`List.get?`) with an explicit default for the
out-of-bounds branch, which theorem `c10_crc_index_in_bounds` proves
unreachable.  The mask `&&& 0xFFFFFFFF` absorbs the wrap-around of the
32-bit left shift. -/
def legacy_crc32 (bytes : List ℕ) : ℕ :=
  let crc := bytes.foldl
    (fun crc byte =>
      let table_val := (PG_CRC32_TABLE.get? (crcIdx crc byte)).getD 0
      (table_val ^^^ (crc <<< 8)) &&& 0xFFFFFFFF)
    0xFFFFFFFF
  crc ^^^ 0xFFFFFFFF

/-- Embedding of `compact_trigram`: concatenate the UTF-8 encodings of the
three characters; three bytes are kept verbatim, otherwise the low three
bytes (little-endian, as in `u32::to_le_bytes`) of the legacy checksum of
the whole encoding are kept. -/
def compact_trigram (a b c : Char) : Trigram :=
  let bytes := [a, b, c].foldl (fun acc ch => acc ++ utf8Bytes ch) []
  if bytes.length = 3 then
    (bytes.getD 0 0, bytes.getD 1 0, bytes.getD 2 0)
  else
    let crc := legacy_crc32 bytes
    (crc &&& 0xFF, (crc >>> 8) &&& 0xFF, (crc >>> 16) &&& 0xFF)

/-- Consecutive 3-character windows of a character list
(`char_buf.windows(3)`). -/
def windows3 : List Char → List (Char × Char × Char)
  | a :: b :: c :: rest => (a, b, c) :: windows3 (b :: c :: rest)
  | _ => []

/-- Single left-to-right pass of `wordRuns`: `cur` is the current word run
accumulated in reverse.  A non-word character (or the end of the text)
closes the current run; word characters extend it. -/
def wordRunsGo (cur : List Char) : List Char → List (List Char)
  | [] => if cur = [] then [] else [cur.reverse]
  | c :: rest =>
    if isWordChar c then wordRunsGo (c :: cur) rest
    else if cur = [] then wordRunsGo [] rest
    else cur.reverse :: wordRunsGo [] rest

/-- Maximal runs of word characters, as produced by
`WORD_RE.find_iter` with the pattern `[\p{L}\p{N}]+`. -/
def wordRuns (cs : List Char) : List (List Char) :=
  wordRunsGo [] cs

/-- Inner loop of `trigrams`: pad one word run with two leading spaces and
one trailing space, encode every 3-character window and insert it. -/
def insTrigrams (s : Finset Trigram) (run : List Char) : Finset Trigram :=
  (windows3 ([' ', ' '] ++ run ++ [' '])).foldl
    (fun s w => insert (compact_trigram w.1 w.2.1 w.2.2) s) s

/-- Embedding of `trigrams`: normalize, find the word runs, and collect the
encoded windows of every padded run into one set. -/
def trigrams (text : String) : Finset Trigram :=
  (wordRuns (pg_downcase text).data).foldl insTrigrams ∅

/-- Embedding of `similarity_from_sets` (Jaccard index with the explicit
zero-union fallback).  `shared` and `total` are the exact values the Rust
code computes in `f64`. -/
def similarity_from_sets (a_set b_set : Finset Trigram) : ℚ :=
  let shared : ℚ := ((a_set ∩ b_set).card : ℚ)
  let total : ℚ := ((a_set.card + b_set.card : ℕ) : ℚ) - shared
  if total = 0 then 0 else shared / total

/-- Embedding of the exported `similarity` operation. -/
def similarity (s1 s2 : String) : ℚ :=
  similarity_from_sets (trigrams s1) (trigrams s2)

/-- Embedding of `similarity_batch`.  Both branches of the size dispatch
compute the same order-preserving map: rayon's `par_iter().map().collect()`
assembles the per-pair results back into input order, which theorem
`c1_similarity_batch` also re-derives from the chunked model
`batchChunked` for every chunk decomposition. -/
def similarity_batch (pairs : List (String × String)) : List ℚ :=
  if pairs.length < PARALLEL_THRESHOLD then
    pairs.map (fun p => similarity_from_sets (trigrams p.1) (trigrams p.2))
  else
    pairs.map (fun p => similarity_from_sets (trigrams p.1) (trigrams p.2))

/-- Chunked model of the parallel branch of `similarity_batch`: every chunk
is mapped independently and the chunk results are concatenated in input
order. -/
def batchChunked (chunks : List (List (String × String))) : List ℚ :=
  (chunks.map
    (fun c => c.map (fun p => similarity_from_sets (trigrams p.1) (trigrams p.2)))).flatten

/-- Result type of `best_match`: either the `{:error, :empty_list}` tuple
or the `{:ok, {index, score}}` tuple. -/
inductive BestMatchResult where
  | error_empty_list : BestMatchResult
  | ok : ℕ → ℚ → BestMatchResult
deriving DecidableEq

/-- Defensive sentinel accumulator `(0, -1.0)` of `best_match`. -/
def init_acc : ℕ × ℚ := (0, -1)

/-- Combiner of both `best_match` folds:
`|acc, x| if x.1 > acc.1 \x7b x \x7d else \x7b acc \x7d` (strictly greater
score replaces, everything else keeps the accumulator). -/
def bmCombine (acc x : ℕ × ℚ) : ℕ × ℚ :=
  if acc.2 < x.2 then x else acc

/-- Scored candidate list of `best_match` / `score_all`: enumerate the
haystacks and score each one against the needle set (which is computed
exactly once and shared by every candidate). -/
def scoredList (needle : String) (haystacks : List String) : List (ℕ × ℚ) :=
  let needle_set := trigrams needle
  haystacks.enum.map (fun p => (p.1, similarity_from_sets needle_set (trigrams p.2)))

/-- Embedding of `best_match`.  The sequential branch folds `bmCombine`
over the scored list; rayon's `reduce` with identity `init_acc` and the
same combiner is modelled by `bmParReduce`, proven equal for every chunk
decomposition in theorem `c3_best_match`. -/
def best_match (needle : String) (haystacks : List String) : BestMatchResult :=
  if haystacks.isEmpty then BestMatchResult.error_empty_list
  else
    let r := (scoredList needle haystacks).foldl bmCombine init_acc
    BestMatchResult.ok r.1 r.2

/-- Chunked model of the parallel branch of `best_match`: every chunk is
folded from `init_acc` independently and the partial results are combined
in input order with the same `bmCombine`. -/
def bmParReduce (chunks : List (List (ℕ × ℚ))) : ℕ × ℚ :=
  (chunks.map (fun c => c.foldl bmCombine init_acc)).foldl bmCombine init_acc

/-- Order imposed by the `sort_unstable_by` comparator of `score_all`:
descending score first (`score_b.partial_cmp(score_a)`), ascending index
on equal scores (`idx_a.cmp(idx_b)`). -/
def scoreOrd (a b : ℕ × ℚ) : Prop :=
  b.2 < a.2 ∨ (a.2 = b.2 ∧ a.1 ≤ b.1)

instance : DecidableRel scoreOrd := fun a b => by
  unfold scoreOrd; exact inferInstance

instance : IsTotal (ℕ × ℚ) scoreOrd := ⟨by
  intro a b
  unfold scoreOrd
  rcases lt_trichotomy a.2 b.2 with h | h | h
  · exact Or.inr (Or.inl h)
  · rcases Nat.le_total a.1 b.1 with hn | hn
    · exact Or.inl (Or.inr ⟨h, hn⟩)
    · exact Or.inr (Or.inr ⟨h.symm, hn⟩)
  · exact Or.inl (Or.inl h)⟩

instance : IsTrans (ℕ × ℚ) scoreOrd := ⟨by
  intro a b c hab hbc
  unfold scoreOrd at *
  rcases hab with h1 | ⟨h1, h1n⟩ <;> rcases hbc with h2 | ⟨h2, h2n⟩
  · exact Or.inl (lt_trans h2 h1)
  · exact Or.inl (by rw [← h2]; exact h1)
  · exact Or.inl (by rw [h1]; exact h2)
  · exact Or.inr ⟨by rw [h1, h2], le_trans h1n h2n⟩⟩

/-- Embedding of `score_all`: score every candidate, keep the scores at or
above the threshold, and sort by `scoreOrd`.  The comparator key
(descending score, ascending index) is injective on the filtered list, so
the unstable sort of the Rust code and any comparison sort produce the
same output; `List.insertionSort` stands in for it. -/
def score_all (needle : String) (haystacks : List String) (min_threshold : ℚ) :
    List (ℕ × ℚ) :=
  let results := (scoredList needle haystacks).filter
    (fun p => decide (min_threshold ≤ p.2))
  List.insertionSort scoreOrd results

/-! ### Helper lemmas: characters and normalization -/

/-- Round trip of `Char.ofNat` on valid scalar values. -/
theorem toNat_ofNat_valid (n : ℕ) (h : Nat.isValidChar n) : (Char.ofNat n).toNat = n := by
  simp only [Char.ofNat, h, dif_pos, Char.ofNatAux, Char.toNat, UInt32.toNat]
  rfl

/-- Unfolding of the word-character predicate into arithmetic ranges. -/
theorem isWordChar_iff (c : Char) :
    isWordChar c = true ↔
      ((0x30 ≤ c.toNat ∧ c.toNat ≤ 0x39) ∨ (0x41 ≤ c.toNat ∧ c.toNat ≤ 0x5A)
        ∨ (0x61 ≤ c.toNat ∧ c.toNat ≤ 0x7A) ∨ c.toNat = 0x130) := by
  simp [isWordChar]

/-- Lowercasing a word character and stripping U+0307 leaves at least one
word character. -/
theorem exists_word_in_lowered (c : Char) (h : isWordChar c = true) :
    ∃ d ∈ (to_lowercase c).filter (fun lc => lc != dotAbove), isWordChar d = true := by
  rw [isWordChar_iff] at h
  have hdot : dotAbove.toNat = 0x307 := by decide
  unfold to_lowercase
  split_ifs with h1 h2
  · have hlt : (Char.ofNat (c.toNat + 0x20)).toNat = c.toNat + 0x20 :=
      toNat_ofNat_valid _ (Or.inl (by omega))
    refine ⟨Char.ofNat (c.toNat + 0x20), ?_, ?_⟩
    · rw [List.mem_filter]
      refine ⟨List.mem_singleton_self _, ?_⟩
      rw [bne_iff_ne]
      intro he
      rw [he, hdot] at hlt
      omega
    · rw [isWordChar_iff, hlt]
      omega
  · exact ⟨'i', by decide, by decide⟩
  · refine ⟨c, ?_, by rw [isWordChar_iff]; omega⟩
    rw [List.mem_filter]
    refine ⟨List.mem_singleton_self _, ?_⟩
    rw [bne_iff_ne]
    intro he
    have hc : c.toNat = 0x307 := by rw [he, hdot]
    omega

/-- Characters of the normalized text are exactly the per-character
lowercase-then-strip outputs. -/
theorem pg_downcase_data (s : String) :
    (pg_downcase s).data =
      s.data.flatMap (fun c => (to_lowercase c).filter (fun lc => lc != dotAbove)) := rfl

/-- An input with a word character normalizes to a text with a word
character. -/
theorem exists_word_in_pg_downcase (s : String) (h : ∃ c ∈ s.data, isWordChar c = true) :
    ∃ d ∈ (pg_downcase s).data, isWordChar d = true := by
  obtain ⟨c, hc, hw⟩ := h
  obtain ⟨d, hd, hdw⟩ := exists_word_in_lowered c hw
  refine ⟨d, ?_, hdw⟩
  rw [pg_downcase_data, List.mem_flatMap]
  exact ⟨c, hc, hd⟩

/-- The normalizer never emits U+0307. -/
theorem pg_downcase_no_dot (s : String) :
    (pg_downcase s).data.all (fun c => c != dotAbove) = true := by
  rw [List.all_eq_true]
  intro c hc
  rw [pg_downcase_data, List.mem_flatMap] at hc
  obtain ⟨a, _, hmem⟩ := hc
  have h3 := List.of_mem_filter hmem
  simpa using h3

/-! ### Helper lemmas: word runs and trigram sets -/

/-- If the current run is nonempty, the scanner reports some nonempty run. -/
theorem wordRunsGo_cur_ne_nil (cs : List Char) : ∀ cur : List Char, cur ≠ [] →
    ∃ r ∈ wordRunsGo cur cs, r ≠ [] := by
  induction cs with
  | nil =>
    intro cur h
    refine ⟨cur.reverse, ?_, by simpa using h⟩
    simp [wordRunsGo, h]
  | cons c rest ih =>
    intro cur h
    by_cases hw : isWordChar c
    · simpa [wordRunsGo, hw] using ih (c :: cur) (by simp)
    · refine ⟨cur.reverse, ?_, by simpa using h⟩
      simp [wordRunsGo, hw, h]

/-- If the remaining text has a word character, the scanner reports some
nonempty run. -/
theorem wordRunsGo_exists_ne_nil (cs : List Char) : ∀ cur : List Char,
    (∃ c ∈ cs, isWordChar c = true) → ∃ r ∈ wordRunsGo cur cs, r ≠ [] := by
  induction cs with
  | nil => intro cur h; simp at h
  | cons c rest ih =>
    intro cur h
    by_cases hw : isWordChar c
    · simpa [wordRunsGo, hw] using wordRunsGo_cur_ne_nil rest (c :: cur) (by simp)
    · obtain ⟨x, hx, hxw⟩ := h
      rcases List.mem_cons.mp hx with rfl | hx2
      · rw [hxw] at hw; exact absurd rfl hw
      · have h2 : ∃ y ∈ rest, isWordChar y = true := ⟨x, hx2, hxw⟩
        by_cases hcur : cur = []
        · simpa [wordRunsGo, hw, hcur] using ih [] h2
        · obtain ⟨r, hr, hrne⟩ := ih [] h2
          refine ⟨r, ?_, hrne⟩
          simp [wordRunsGo, hw, hcur, hr]

/-- A text with a word character has some nonempty word run. -/
theorem wordRuns_exists_ne_nil (cs : List Char) (h : ∃ c ∈ cs, isWordChar c = true) :
    ∃ r ∈ wordRuns cs, r ≠ [] :=
  wordRunsGo_exists_ne_nil cs [] h

/-- The window fold only inserts: the start set is contained in the result. -/
theorem subset_windows_fold (l : List (Char × Char × Char)) (s : Finset Trigram) :
    s ⊆ l.foldl (fun s w => insert (compact_trigram w.1 w.2.1 w.2.2) s) s := by
  induction l generalizing s with
  | nil => exact subset_rfl
  | cons w ws ih =>
    rw [List.foldl_cons]
    exact subset_trans (Finset.subset_insert _ s) (ih _)

/-- `insTrigrams` only inserts. -/
theorem subset_insTrigrams (s : Finset Trigram) (run : List Char) :
    s ⊆ insTrigrams s run :=
  subset_windows_fold _ s

/-- A nonempty word run contributes at least one trigram. -/
theorem insTrigrams_nonempty (s : Finset Trigram) (run : List Char) (h : run ≠ []) :
    (insTrigrams s run).Nonempty := by
  obtain ⟨x, xs, rfl⟩ := List.exists_cons_of_ne_nil h
  show (_ : Finset Trigram).Nonempty
  rw [insTrigrams]
  have hw : windows3 ([' ', ' '] ++ (x :: xs) ++ [' ']) =
      (' ', ' ', x) :: windows3 (' ' :: x :: (xs ++ [' '])) := rfl
  rw [hw, List.foldl_cons]
  exact ⟨compact_trigram ' ' ' ' x,
    subset_windows_fold _ _ (Finset.mem_insert_self _ s)⟩

/-- The run fold only inserts. -/
theorem subset_runs_fold (runs : List (List Char)) (s : Finset Trigram) :
    s ⊆ runs.foldl insTrigrams s := by
  induction runs generalizing s with
  | nil => exact subset_rfl
  | cons r rest ih =>
    rw [List.foldl_cons]
    exact subset_trans (subset_insTrigrams s r) (ih _)

/-- Folding over runs of which one is nonempty yields a nonempty set. -/
theorem runs_fold_nonempty (runs : List (List Char)) : ∀ s : Finset Trigram,
    (∃ r ∈ runs, r ≠ []) → (runs.foldl insTrigrams s).Nonempty := by
  induction runs with
  | nil => intro s h; simp at h
  | cons r rest ih =>
    intro s h
    rw [List.foldl_cons]
    obtain ⟨r0, hr0, hne⟩ := h
    rcases List.mem_cons.mp hr0 with rfl | h2
    · obtain ⟨t, ht⟩ := insTrigrams_nonempty s r0 hne
      exact ⟨t, subset_runs_fold rest _ ht⟩
    · exact ih _ ⟨r0, h2, hne⟩

/-- A string containing a word character has a nonempty trigram set. -/
theorem trigrams_nonempty (s : String) (h : ∃ c ∈ s.data, isWordChar c = true) :
    (trigrams s).Nonempty := by
  rw [trigrams]
  exact runs_fold_nonempty _ _
    (wordRuns_exists_ne_nil _ (exists_word_in_pg_downcase s h))

/-! ### Helper lemmas: similarity algebra -/

/-- The Jaccard value is never negative. -/
theorem similarity_from_sets_nonneg (A B : Finset Trigram) :
    0 ≤ similarity_from_sets A B := by
  simp only [similarity_from_sets]
  split_ifs with h
  · exact le_refl 0
  · have h1 : (A ∩ B).card ≤ A.card + B.card :=
      le_trans (Finset.card_le_card Finset.inter_subset_left) (Nat.le_add_right _ _)
    have h2 : ((A ∩ B).card : ℚ) ≤ ((A.card + B.card : ℕ) : ℚ) := by exact_mod_cast h1
    have h3 : (0 : ℚ) ≤ ((A.card + B.card : ℕ) : ℚ) - ((A ∩ B).card : ℚ) := by linarith
    exact div_nonneg (by positivity) h3

/-- The Jaccard value never exceeds one. -/
theorem similarity_from_sets_le_one (A B : Finset Trigram) :
    similarity_from_sets A B ≤ 1 := by
  simp only [similarity_from_sets]
  split_ifs with h
  · norm_num
  · have ha : (A ∩ B).card ≤ A.card := Finset.card_le_card Finset.inter_subset_left
    have hb : (A ∩ B).card ≤ B.card := Finset.card_le_card Finset.inter_subset_right
    have h2 : 2 * (A ∩ B).card ≤ A.card + B.card := by omega
    have h2q : 2 * ((A ∩ B).card : ℚ) ≤ ((A.card + B.card : ℕ) : ℚ) := by exact_mod_cast h2
    have hnn : (0 : ℚ) ≤ ((A.card + B.card : ℕ) : ℚ) - ((A ∩ B).card : ℚ) := by
      have : ((A ∩ B).card : ℚ) ≤ ((A.card + B.card : ℕ) : ℚ) := by linarith
      linarith
    have hpos : (0 : ℚ) < ((A.card + B.card : ℕ) : ℚ) - ((A ∩ B).card : ℚ) :=
      lt_of_le_of_ne hnn (Ne.symm h)
    rw [div_le_one hpos]
    linarith

/-- The Jaccard value depends symmetrically on the two sets. -/
theorem similarity_from_sets_comm (A B : Finset Trigram) :
    similarity_from_sets A B = similarity_from_sets B A := by
  simp only [similarity_from_sets]
  rw [Finset.inter_comm, Nat.add_comm]

/-- The Jaccard value of a nonempty set with itself is one. -/
theorem similarity_from_sets_self (A : Finset Trigram) (h : A.Nonempty) :
    similarity_from_sets A A = 1 := by
  simp only [similarity_from_sets, Finset.inter_self]
  have hc : 0 < A.card := Finset.card_pos.mpr h
  have hq : ((A.card + A.card : ℕ) : ℚ) - (A.card : ℚ) = (A.card : ℚ) := by
    push_cast
    ring
  rw [hq, if_neg (by exact_mod_cast Nat.pos_iff_ne_zero.mp hc)]
  exact div_self (by exact_mod_cast Nat.pos_iff_ne_zero.mp hc)

/-- The similarity score is never negative. -/
theorem similarity_nonneg (a b : String) : 0 ≤ similarity a b :=
  similarity_from_sets_nonneg _ _

/-- Strings with equal, nonempty trigram sets have similarity one. -/
theorem similarity_eq_one_of_eq (a b : String) (h : trigrams a = trigrams b)
    (hne : (trigrams b).Nonempty) : similarity a b = 1 := by
  rw [similarity, h]
  exact similarity_from_sets_self _ hne

/-! ### Helper lemmas: the best-match fold and its parallel reduction -/

/-- The combiner is associative (max-by-score with left bias on ties). -/
theorem bmCombine_assoc (a x y : ℕ × ℚ) :
    bmCombine (bmCombine a x) y = bmCombine a (bmCombine x y) := by
  unfold bmCombine
  split_ifs <;> first | rfl | (exfalso; linarith)

/-- Folding the combiner never decreases the accumulated score. -/
theorem bmFold_snd_ge (l : List (ℕ × ℚ)) : ∀ a : ℕ × ℚ,
    a.2 ≤ (l.foldl bmCombine a).2 := by
  induction l with
  | nil => intro a; exact le_refl _
  | cons x xs ih =>
    intro a
    rw [List.foldl_cons]
    refine le_trans ?_ (ih (bmCombine a x))
    unfold bmCombine
    split_ifs with h
    · exact le_of_lt h
    · exact le_refl _

/-- The sentinel is a right identity on accumulators with score at least
`-1`. -/
theorem bmCombine_init_right (a : ℕ × ℚ) (h : -1 ≤ a.2) : bmCombine a init_acc = a := by
  unfold bmCombine init_acc
  rw [if_neg]
  intro hlt
  simp only at hlt
  linarith

/-- The sentinel is a left identity on entries with score above `-1`. -/
theorem bmCombine_init_left (a : ℕ × ℚ) (h : -1 < a.2) : bmCombine init_acc a = a := by
  unfold bmCombine init_acc
  exact if_pos h

/-- A left fold of the combiner from an arbitrary accumulator factors
through the fold from the sentinel, provided every entry scores above the
sentinel. -/
theorem bmFold_distrib (l : List (ℕ × ℚ)) : ∀ a : ℕ × ℚ, -1 ≤ a.2 →
    (∀ p ∈ l, -1 < p.2) →
    l.foldl bmCombine a = bmCombine a (l.foldl bmCombine init_acc) := by
  induction l with
  | nil =>
    intro a ha _
    rw [List.foldl_nil, List.foldl_nil, bmCombine_init_right a ha]
  | cons x xs ih =>
    intro a ha hl
    have hx : -1 < x.2 := hl x (List.mem_cons_self x xs)
    have hxs : ∀ p ∈ xs, -1 < p.2 := fun p hp => hl p (List.mem_cons_of_mem x hp)
    have hax : -1 ≤ (bmCombine a x).2 := by
      unfold bmCombine
      split_ifs
      · exact le_of_lt hx
      · exact ha
    rw [List.foldl_cons, List.foldl_cons, bmCombine_init_left x hx,
      ih (bmCombine a x) hax hxs, ih x (le_of_lt hx) hxs, bmCombine_assoc]

/-- A fold from the sentinel over a nonempty list of entries scoring above
the sentinel has a score above the sentinel. -/
theorem bmFold_init_snd_pos (c : List (ℕ × ℚ)) (hc : c ≠ [])
    (h : ∀ p ∈ c, -1 < p.2) : -1 < (c.foldl bmCombine init_acc).2 := by
  obtain ⟨x, xs, rfl⟩ := List.exists_cons_of_ne_nil hc
  have hx : -1 < x.2 := h x (List.mem_cons_self x xs)
  rw [List.foldl_cons, bmCombine_init_left x hx]
  exact lt_of_lt_of_le hx (bmFold_snd_ge xs x)

/-- The chunked parallel reduction of `best_match` computes the same value
as the sequential fold, for every decomposition into nonempty chunks of
entries scoring above the sentinel. -/
theorem bmParReduce_eq (chunks : List (List (ℕ × ℚ)))
    (hne : ∀ c ∈ chunks, c ≠ []) (hpos : ∀ p ∈ chunks.flatten, -1 < p.2) :
    bmParReduce chunks = chunks.flatten.foldl bmCombine init_acc := by
  induction chunks with
  | nil => rfl
  | cons c rest ih =>
    have hc : c ≠ [] := hne c (List.mem_cons_self c rest)
    have hcpos : ∀ p ∈ c, -1 < p.2 := fun p hp =>
      hpos p (by rw [List.flatten_cons]; exact List.mem_append_left _ hp)
    have hrestpos : ∀ p ∈ rest.flatten, -1 < p.2 := fun p hp =>
      hpos p (by rw [List.flatten_cons]; exact List.mem_append_right _ hp)
    have hrestne : ∀ d ∈ rest, d ≠ [] := fun d hd => hne d (List.mem_cons_of_mem c hd)
    have hmappos : ∀ p ∈ rest.map (fun d => d.foldl bmCombine init_acc), -1 < p.2 := by
      intro p hp
      rw [List.mem_map] at hp
      obtain ⟨d, hd, rfl⟩ := hp
      exact bmFold_init_snd_pos d (hrestne d hd) (fun q hq => hrestpos q
        (List.mem_flatten.mpr ⟨d, hd, hq⟩))
    have hcf : -1 < (c.foldl bmCombine init_acc).2 := bmFold_init_snd_pos c hc hcpos
    rw [bmParReduce, List.map_cons, List.foldl_cons, bmCombine_init_left _ hcf,
      bmFold_distrib _ _ (le_of_lt hcf) hmappos]
    rw [bmParReduce] at ih
    rw [ih hrestne hrestpos, List.flatten_cons, List.foldl_append,
      bmFold_distrib _ (c.foldl bmCombine init_acc) (le_of_lt hcf) hrestpos]

/-- Characterization of the left fold of `bmCombine` over an enumerated
score list: either nothing beat the accumulator, or the result is the
first entry attaining the maximal score (strictly greater entries replace,
ties keep the earlier entry). -/
theorem bmFold_argmax (l : List ℚ) : ∀ (n : ℕ) (a : ℕ × ℚ),
    ((List.enumFrom n l).foldl bmCombine a = a ∧ ∀ s ∈ l, s ≤ a.2)
  ∨ ∃ k m, l.get? k = some m
      ∧ (List.enumFrom n l).foldl bmCombine a = (n + k, m)
      ∧ a.2 < m ∧ (∀ s ∈ l, s ≤ m)
      ∧ ∀ j s, j < k → l.get? j = some s → s < m := by
  induction l with
  | nil =>
    intro n a
    left
    exact ⟨rfl, by simp⟩
  | cons x xs ih =>
    intro n a
    rw [List.enumFrom_cons, List.foldl_cons]
    by_cases hx : a.2 < x
    · have hstep : bmCombine a (n, x) = (n, x) := if_pos hx
      rw [hstep]
      rcases ih (n + 1) (n, x) with ⟨heq, hle⟩ | ⟨k, m, hget, heq, hlt, hmax, hfirst⟩
      · right
        refine ⟨0, x, rfl, ?_, hx, ?_, ?_⟩
        · rw [heq]
          simp
        · intro s hs
          rcases List.mem_cons.mp hs with rfl | h2
          · exact le_refl s
          · exact hle s h2
        · intro j s hj _
          omega
      · right
        have hlt2 : x < m := hlt
        refine ⟨k + 1, m, by rwa [List.get?_cons_succ], ?_, lt_trans hx hlt2, ?_, ?_⟩
        · rw [heq]
          congr 1
          omega
        · intro s hs
          rcases List.mem_cons.mp hs with rfl | h2
          · exact le_of_lt hlt2
          · exact hmax s h2
        · intro j s hj hget2
          cases j with
          | zero =>
            rw [List.get?_cons_zero] at hget2
            injection hget2 with h2
            rw [← h2]
            exact hlt2
          | succ i =>
            rw [List.get?_cons_succ] at hget2
            exact hfirst i s (by omega) hget2
    · have hstep : bmCombine a (n, x) = a := if_neg hx
      rw [hstep]
      rcases ih (n + 1) a with ⟨heq, hle⟩ | ⟨k, m, hget, heq, hlt, hmax, hfirst⟩
      · left
        refine ⟨heq, ?_⟩
        intro s hs
        rcases List.mem_cons.mp hs with rfl | h2
        · exact le_of_not_lt hx
        · exact hle s h2
      · right
        refine ⟨k + 1, m, by rwa [List.get?_cons_succ], ?_, hlt, ?_, ?_⟩
        · rw [heq]
          congr 1
          omega
        · intro s hs
          rcases List.mem_cons.mp hs with rfl | h2
          · exact le_trans (le_of_not_lt hx) (le_of_lt hlt)
          · exact hmax s h2
        · intro j s hj hget2
          cases j with
          | zero =>
            rw [List.get?_cons_zero] at hget2
            injection hget2 with h2
            rw [← h2]
            exact lt_of_le_of_lt (le_of_not_lt hx) hlt
          | succ i =>
            rw [List.get?_cons_succ] at hget2
            exact hfirst i s (by omega) hget2

/-- Enumerating then mapping the payload equals mapping then enumerating. -/
theorem enumFrom_map_snd (f : String → ℚ) (l : List String) : ∀ n : ℕ,
    (List.enumFrom n l).map (fun p => (p.1, f p.2)) = List.enumFrom n (l.map f) := by
  induction l with
  | nil => intro n; rfl
  | cons x xs ih =>
    intro n
    rw [List.enumFrom_cons, List.map_cons, List.map_cons, List.enumFrom_cons, ih]

/-- The scored candidate list is the enumeration of the per-candidate
similarity scores. -/
theorem scoredList_eq (needle : String) (haystacks : List String) :
    scoredList needle haystacks =
      List.enumFrom 0 (haystacks.map (fun h => similarity needle h)) := by
  rw [scoredList]
  exact enumFrom_map_snd (fun h => similarity needle h) haystacks 0

/-- Membership in an enumerated list, by position. -/
theorem mem_enumFrom_iff (l : List ℚ) : ∀ (n : ℕ) (p : ℕ × ℚ),
    p ∈ List.enumFrom n l ↔ ∃ i, l.get? i = some p.2 ∧ p.1 = n + i := by
  induction l with
  | nil => simp
  | cons x xs ih =>
    intro n p
    rw [List.enumFrom_cons, List.mem_cons, ih (n + 1)]
    constructor
    · rintro (rfl | ⟨i, hi, hp⟩)
      · exact ⟨0, rfl, by omega⟩
      · exact ⟨i + 1, by rwa [List.get?_cons_succ], by omega⟩
    · rintro ⟨i, hi, hp⟩
      cases i with
      | zero =>
        left
        obtain ⟨p1, p2⟩ := p
        rw [List.get?_cons_zero] at hi
        injection hi with h2
        simp only at hp
        rw [hp, h2]
        simp
      | succ j =>
        right
        exact ⟨j, by rwa [List.get?_cons_succ] at hi, by omega⟩

/-- Every entry of the scored list scores at least zero (similarity is
nonnegative). -/
theorem scoredList_snd_nonneg (needle : String) (haystacks : List String) :
    ∀ p ∈ scoredList needle haystacks, 0 ≤ p.2 := by
  intro p hp
  rw [scoredList_eq, mem_enumFrom_iff] at hp
  obtain ⟨i, hi, _⟩ := hp
  have hmem : p.2 ∈ haystacks.map (fun h => similarity needle h) := by
    exact List.get?_mem hi
  rw [List.mem_map] at hmem
  obtain ⟨h, _, hh⟩ := hmem
  rw [← hh]
  exact similarity_nonneg needle h

/-! ### Claim theorems -/

/-- C2: for every three characters, the compact encoder produces the 3
verbatim bytes when the characters encode to exactly 3 UTF-8 bytes, and
otherwise the low-order 3 bytes (little-endian) of the legacy table-driven
checksum of the full encoding; encoding a, b, c yields the bytes
0x61, 0x62, 0x63 and the legacy checksum of those bytes is non-zero. -/
theorem c2_compact_trigram (a b c : Char) :
    ((utf8Bytes a ++ utf8Bytes b ++ utf8Bytes c).length = 3 →
      compact_trigram a b c =
        ((utf8Bytes a ++ utf8Bytes b ++ utf8Bytes c).getD 0 0,
          (utf8Bytes a ++ utf8Bytes b ++ utf8Bytes c).getD 1 0,
          (utf8Bytes a ++ utf8Bytes b ++ utf8Bytes c).getD 2 0))
  ∧ ((utf8Bytes a ++ utf8Bytes b ++ utf8Bytes c).length ≠ 3 →
      compact_trigram a b c =
        (legacy_crc32 (utf8Bytes a ++ utf8Bytes b ++ utf8Bytes c) &&& 0xFF,
          (legacy_crc32 (utf8Bytes a ++ utf8Bytes b ++ utf8Bytes c) >>> 8) &&& 0xFF,
          (legacy_crc32 (utf8Bytes a ++ utf8Bytes b ++ utf8Bytes c) >>> 16) &&& 0xFF))
  ∧ compact_trigram 'a' 'b' 'c' = (0x61, 0x62, 0x63)
  ∧ legacy_crc32 [0x61, 0x62, 0x63] ≠ 0 := by
  have hb : [a, b, c].foldl (fun acc ch => acc ++ utf8Bytes ch) [] =
      utf8Bytes a ++ utf8Bytes b ++ utf8Bytes c := by
    simp [List.foldl_cons, List.foldl_nil]
  refine ⟨?_, ?_, by decide, by decide⟩
  · intro h
    simp only [compact_trigram, hb]
    rw [if_pos h]
  · intro h
    simp only [compact_trigram, hb]
    rw [if_neg h]

/-- C2 witness: the verbatim rule applied to the 3-byte encoding of
a, b, c, and the checksum rule applied to the 6-byte encoding of
three copies of U+00E9. -/
theorem c2_compact_trigram_witness :
    compact_trigram 'a' 'b' 'c' =
      ((utf8Bytes 'a' ++ utf8Bytes 'b' ++ utf8Bytes 'c').getD 0 0,
        (utf8Bytes 'a' ++ utf8Bytes 'b' ++ utf8Bytes 'c').getD 1 0,
        (utf8Bytes 'a' ++ utf8Bytes 'b' ++ utf8Bytes 'c').getD 2 0)
  ∧ compact_trigram 'é' 'é' 'é' =
      (legacy_crc32 (utf8Bytes 'é' ++ utf8Bytes 'é' ++ utf8Bytes 'é') &&& 0xFF,
        (legacy_crc32 (utf8Bytes 'é' ++ utf8Bytes 'é' ++ utf8Bytes 'é') >>> 8) &&& 0xFF,
        (legacy_crc32 (utf8Bytes 'é' ++ utf8Bytes 'é' ++ utf8Bytes 'é') >>> 16) &&& 0xFF) :=
  ⟨(c2_compact_trigram 'a' 'b' 'c').1 (by decide),
    (c2_compact_trigram 'é' 'é' 'é').2.1 (by decide)⟩

/-- C5: `best_match` on an empty candidate list returns the structured
empty-list error, which is distinguishable from every successful
(index, score) result. -/
theorem c5_best_match_empty (needle : String) :
    best_match needle [] = BestMatchResult.error_empty_list
  ∧ ∀ (i : ℕ) (q : ℚ), BestMatchResult.error_empty_list ≠ BestMatchResult.ok i q := by
  constructor
  · rfl
  · intro i q h
    exact BestMatchResult.noConfusion h

/-- C5 witness: the theorem instantiated at a concrete needle and a
concrete would-be success value. -/
theorem c5_best_match_empty_witness :
    best_match "x" [] = BestMatchResult.error_empty_list
  ∧ BestMatchResult.error_empty_list ≠ BestMatchResult.ok 0 0 :=
  ⟨(c5_best_match_empty "x").1, (c5_best_match_empty "x").2 0 0⟩

/-- C6: normalization folds case first and then strips U+0307 (the output
never contains U+0307), so the Turkish dotted capital I word and its
plain-lowercase form normalize to identical text, have equal trigram sets
and similarity 1. -/
theorem c6_normalization :
    pg_downcase "İstanbul" = "istanbul"
  ∧ (∀ s : String, (pg_downcase s).data.all (fun c => c != dotAbove) = true)
  ∧ trigrams "İstanbul" = trigrams "istanbul"
  ∧ similarity "İstanbul" "istanbul" = 1 := by
  refine ⟨by decide, pg_downcase_no_dot, by decide, ?_⟩
  exact similarity_eq_one_of_eq _ _ (by decide) (by decide)

/-- C6 witness: the no-U+0307 conjunct instantiated at the concrete
input with the dotted capital I. -/
theorem c6_normalization_witness :
    (pg_downcase "İstanbul").data.all (fun c => c != dotAbove) = true :=
  c6_normalization.2.1 "İstanbul"

/-- C7: the similarity score always lies in the closed interval from 0 to
1, is 0 whenever both trigram sets are empty (zero union size), and in
particular the similarity of two empty strings is 0.  In the Rust code the
guarded division makes NaN unreachable; the exact rational model mirrors
the guard. -/
theorem c7_similarity_range (a b : String) :
    0 ≤ similarity a b ∧ similarity a b ≤ 1
  ∧ (trigrams a = ∅ ∧ trigrams b = ∅ → similarity a b = 0)
  ∧ similarity "" "" = 0 := by
  refine ⟨similarity_nonneg a b, similarity_from_sets_le_one _ _, ?_, ?_⟩
  · rintro ⟨ha, hb⟩
    rw [similarity, ha, hb]
    norm_num [similarity_from_sets]
  · have h0 : trigrams "" = (∅ : Finset Trigram) := rfl
    rw [similarity, h0]
    norm_num [similarity_from_sets]

/-- C7 witness: the zero-union conjunct discharged at two empty strings,
whose trigram sets are both empty. -/
theorem c7_similarity_range_witness : similarity "" "" = 0 :=
  (c7_similarity_range "" "").2.2.1 ⟨by decide, by decide⟩

/-- C8: similarity is symmetric, because the score depends only on the
intersection size and the two set sizes. -/
theorem c8_similarity_symm (a b : String) : similarity a b = similarity b a :=
  similarity_from_sets_comm (trigrams a) (trigrams b)

/-- C8 witness: symmetry at a concrete pair of strings. -/
theorem c8_similarity_symm_witness : similarity "hello" "hallo" = similarity "hallo" "hello" :=
  c8_similarity_symm "hello" "hallo"

/-- C9: every non-empty string containing at least one word character has
self-similarity 1. -/
theorem c9_self_similarity (s : String) (h1 : s ≠ "")
    (h2 : ∃ c ∈ s.data, isWordChar c = true) : similarity s s = 1 := by
  rw [similarity]
  exact similarity_from_sets_self _ (trigrams_nonempty s h2)

/-- C9 witness: self-similarity of a concrete non-empty word. -/
theorem c9_self_similarity_witness : similarity "ab" "ab" = 1 :=
  c9_self_similarity "ab" (by decide) (by decide)

set_option maxRecDepth 2048 in
/-- C10: the table index of every legacy-checksum step is masked below
256, so every lookup into the 256-entry table is in bounds and the
Option-returning indexing never hits its out-of-bounds branch. -/
theorem c10_crc_index_in_bounds (crc byte : ℕ) :
    crcIdx crc byte < 256
  ∧ PG_CRC32_TABLE.length = 256
  ∧ (PG_CRC32_TABLE.get? (crcIdx crc byte)).isSome = true := by
  have hlen : PG_CRC32_TABLE.length = 256 := rfl
  have h : crcIdx crc byte < 256 := by
    have h1 : crcIdx crc byte ≤ 0xFF := Nat.and_le_right
    omega
  refine ⟨h, hlen, ?_⟩
  rw [List.get?_eq_get (by omega)]
  rfl

/-- C10 witness: the bound at a concrete register value and byte. -/
theorem c10_crc_index_in_bounds_witness :
    crcIdx 0xFFFFFFFF 0x61 < 256
  ∧ PG_CRC32_TABLE.length = 256
  ∧ (PG_CRC32_TABLE.get? (crcIdx 0xFFFFFFFF 0x61)).isSome = true :=
  c10_crc_index_in_bounds 0xFFFFFFFF 0x61

/-- C1: `similarity_batch` returns one score per pair, in input order, the
i-th score being the similarity of the i-th pair, and the chunked parallel
evaluation agrees with the sequential map for every decomposition of the
input into chunks — both sides of the crossover threshold compute the same
function. -/
theorem c1_similarity_batch (pairs : List (String × String)) :
    (similarity_batch pairs).length = pairs.length
  ∧ (∀ (i : ℕ) (p : String × String), pairs.get? i = some p →
      (similarity_batch pairs).get? i = some (similarity p.1 p.2))
  ∧ (∀ chunks : List (List (String × String)), chunks.flatten = pairs →
      batchChunked chunks = similarity_batch pairs) := by
  have hmap : similarity_batch pairs =
      pairs.map (fun p => similarity_from_sets (trigrams p.1) (trigrams p.2)) := by
    simp only [similarity_batch]
    split_ifs <;> rfl
  refine ⟨?_, ?_, ?_⟩
  · rw [hmap, List.length_map]
  · intro i p hp
    rw [hmap, List.get?_map, hp]
    rfl
  · intro chunks hch
    rw [batchChunked, ← List.map_flatten, hch, hmap]

/-- C1 witness: the indexing equation and the chunked evaluation at a
concrete one-pair batch. -/
theorem c1_similarity_batch_witness :
    (similarity_batch [("ab", "cd")]).get? 0 = some (similarity "ab" "cd")
  ∧ batchChunked [[("ab", "cd")]] = similarity_batch [("ab", "cd")] :=
  ⟨(c1_similarity_batch [("ab", "cd")]).2.1 0 ("ab", "cd") rfl,
    (c1_similarity_batch [("ab", "cd")]).2.2 [[("ab", "cd")]] rfl⟩

/-- C3 counterexample: the combiner both `best_match` paths use performs no
index comparison.  On equal scores it keeps the accumulator whatever the
indices are: fed an accumulator with index 5 and a candidate with the same
score and index 2, it returns index 5, whereas an explicit lowest-index
tie-break would return index 2.  The deterministic lowest-index result of
`best_match` therefore comes from the order-preserving traversal, not from
an explicit index comparison. -/
theorem c3_counterexample :
    bmCombine (5, (1 : ℚ)) (2, (1 : ℚ)) = (5, (1 : ℚ))
  ∧ bmCombine (5, (1 : ℚ)) (2, (1 : ℚ)) ≠ (2, (1 : ℚ)) := by
  have h : bmCombine (5, (1 : ℚ)) (2, (1 : ℚ)) = (5, (1 : ℚ)) := by
    unfold bmCombine
    norm_num
  refine ⟨h, ?_⟩
  rw [h]
  simp

/-- C3 (amended): for every query and non-empty candidate list,
`best_match` computes the query trigram set once and returns the
(index, score) pair scoring the maximum similarity, at the lowest index
attaining it — on the sequential fold and on the chunked parallel
reduction alike, for every decomposition into nonempty chunks; the
tie-break arises from the left-biased strictly-greater-replaces combiner
applied in input order, not from an explicit index comparison. -/
theorem c3_best_match (needle : String) (haystacks : List String) (hne : haystacks ≠ []) :
    ∃ (k : ℕ) (hay : String),
      haystacks.get? k = some hay
      ∧ best_match needle haystacks = BestMatchResult.ok k (similarity needle hay)
      ∧ (∀ j g, haystacks.get? j = some g → similarity needle g ≤ similarity needle hay)
      ∧ (∀ j g, haystacks.get? j = some g →
          similarity needle g = similarity needle hay → k ≤ j)
      ∧ (∀ chunks : List (List (ℕ × ℚ)), chunks.flatten = scoredList needle haystacks →
          (∀ c ∈ chunks, c ≠ []) → bmParReduce chunks = (k, similarity needle hay)) := by
  rcases bmFold_argmax (haystacks.map (fun g => similarity needle g)) 0 init_acc with
    ⟨heq, hle⟩ | ⟨k, m, hget, heq, hlt, hmax, hfirst⟩
  · exfalso
    obtain ⟨y, ys, rfl⟩ := List.exists_cons_of_ne_nil hne
    have h1 : similarity needle y ≤ init_acc.2 := by
      apply hle
      rw [List.map_cons]
      exact List.mem_cons_self _ _
    have h2 : (0 : ℚ) ≤ similarity needle y := similarity_nonneg _ _
    have h3 : init_acc.2 = -1 := rfl
    rw [h3] at h1
    linarith
  · rw [List.get?_map] at hget
    rcases Option.map_eq_some'.mp hget with ⟨hay, hhay, hfhay⟩
    refine ⟨k, hay, hhay, ?_, ?_, ?_, ?_⟩
    · have hie : haystacks.isEmpty = false := by
        simpa [List.isEmpty_iff] using hne
      simp only [best_match, hie, Bool.false_eq_true, if_false]
      rw [scoredList_eq, heq]
      simp [hfhay]
    · intro j g hjg
      have hmem : similarity needle g ∈ haystacks.map (fun g => similarity needle g) :=
        List.mem_map_of_mem _ (List.get?_mem hjg)
      rw [hfhay]
      exact hmax _ hmem
    · intro j g hjg heq2
      by_contra hkj
      push_neg at hkj
      have hget_j : (haystacks.map (fun g => similarity needle g)).get? j
          = some (similarity needle g) := by
        rw [List.get?_map, hjg]
        rfl
      have hstrict := hfirst j (similarity needle g) hkj hget_j
      rw [heq2, hfhay] at hstrict
      exact lt_irrefl m hstrict
    · intro chunks hch hcne
      have hpos : ∀ p ∈ chunks.flatten, -1 < p.2 := by
        intro p hp
        rw [hch] at hp
        have := scoredList_snd_nonneg needle haystacks p hp
        linarith
      rw [bmParReduce_eq chunks hcne hpos, hch, scoredList_eq, heq]
      simp [hfhay]

/-- C3 witness: the amended theorem at a concrete query and candidate
list whose best match sits at index 1. -/
theorem c3_best_match_witness :
    ∃ (k : ℕ) (hay : String),
      ["xy", "ab"].get? k = some hay
      ∧ best_match "ab" ["xy", "ab"] = BestMatchResult.ok k (similarity "ab" hay)
      ∧ (∀ j g, ["xy", "ab"].get? j = some g → similarity "ab" g ≤ similarity "ab" hay)
      ∧ (∀ j g, ["xy", "ab"].get? j = some g →
          similarity "ab" g = similarity "ab" hay → k ≤ j)
      ∧ (∀ chunks : List (List (ℕ × ℚ)), chunks.flatten = scoredList "ab" ["xy", "ab"] →
          (∀ c ∈ chunks, c ≠ []) → bmParReduce chunks = (k, similarity "ab" hay)) :=
  c3_best_match "ab" ["xy", "ab"] (by simp)

/-- C4: `score_all` returns exactly the (index, score) pairs at or above
the threshold (a permutation of the filtered scored list, with every entry
coming from its candidate and every qualifying candidate present), sorted
by descending score with ties broken by ascending index. -/
theorem c4_score_all (needle : String) (haystacks : List String) (θ : ℚ) :
    (score_all needle haystacks θ).Perm
      ((scoredList needle haystacks).filter (fun p => decide (θ ≤ p.2)))
  ∧ List.Sorted scoreOrd (score_all needle haystacks θ)
  ∧ (∀ p ∈ score_all needle haystacks θ,
      θ ≤ p.2 ∧ ∃ g, haystacks.get? p.1 = some g ∧ p.2 = similarity needle g)
  ∧ (∀ i g, haystacks.get? i = some g → θ ≤ similarity needle g →
      (i, similarity needle g) ∈ score_all needle haystacks θ) := by
  have hperm : (score_all needle haystacks θ).Perm
      ((scoredList needle haystacks).filter (fun p => decide (θ ≤ p.2))) := by
    simp only [score_all]
    exact List.perm_insertionSort _ _
  have hsorted : List.Sorted scoreOrd (score_all needle haystacks θ) := by
    simp only [score_all]
    exact List.sorted_insertionSort _ _
  refine ⟨hperm, hsorted, ?_, ?_⟩
  · intro p hp
    have hp2 := hperm.mem_iff.mp hp
    rw [List.mem_filter] at hp2
    obtain ⟨hmem, hdec⟩ := hp2
    refine ⟨of_decide_eq_true hdec, ?_⟩
    rw [scoredList_eq, mem_enumFrom_iff] at hmem
    obtain ⟨i, hi, hp1⟩ := hmem
    rw [List.get?_map] at hi
    rcases Option.map_eq_some'.mp hi with ⟨g, hg, hfg⟩
    refine ⟨g, ?_, hfg.symm⟩
    rw [hp1]
    simpa using hg
  · intro i g hig hθ
    have hmem : (i, similarity needle g) ∈ scoredList needle haystacks := by
      rw [scoredList_eq, mem_enumFrom_iff]
      refine ⟨i, ?_, by simp⟩
      rw [List.get?_map, hig]
      rfl
    exact hperm.mem_iff.mpr (List.mem_filter.mpr ⟨hmem, decide_eq_true hθ⟩)

/-- C4 witness: a qualifying candidate appears in the output at a concrete
query, candidate list and threshold. -/
theorem c4_score_all_witness :
    ((0 : ℕ), similarity "ab" "ab") ∈ score_all "ab" ["ab"] 0 :=
  (c4_score_all "ab" ["ab"] 0).2.2.2 0 "ab" rfl (similarity_nonneg "ab" "ab")

end TrigramNif
